import Mathlib

/-!
# Verification of the `dejavu` witness memory (src/dejavu.go)

A shallow embedding of the Go package `dejavu`: a bounded-memory
"seen-before" witness built from a fixed-capacity ring buffer of sha256
digests, an acceleration map from digest to its newest slot, and a cursor.

Modelling conventions:
* `[sha256.Size]byte` is modelled as a list of bytes (`List (Fin 256)`);
  the Go zero value of the array type is `zeroDigest` (32 zero bytes).
* Go's `map[[32]byte]int` is modelled as a function `Digest → Option Nat`;
  a Go map read `m[k]` yields the zero value `0` when the key is absent,
  modelled by `mapGetD`; `delete` of an absent key is a no-op.
* Go panics (index out of range on `d.buffer[d.index]`, modulo by zero on
  `% d.size`) are modelled by `WitnessDigest` returning `none`.
* The mutex serializes calls; the sequential semantics of a call sequence
  is `runList`/`runState` (the spec's ordering guarantee: outcomes are as
  if calls executed sequentially in lock-acquisition order).
* `crypto/sha256` is an external collaborator (not part of this
  repository's source); `Witness` is therefore parametrized by the hash
  function, exactly mirroring `Witness(data) = WitnessDigest(sha256.Sum256(data))`.
-/

namespace DejaVu

/-- A byte, the element type of digests and of raw input data. -/
abbrev Byte := Fin 256

/-- Models `[sha256.Size]byte`; well-formed digests have length 32. -/
abbrev Digest := List Byte

/-- Raw input bytes (`[]byte`). -/
abbrev ByteSeq := List Byte

/-- The Go zero value of `[sha256.Size]byte`: 32 zero bytes.  This is what
`make([][sha256.Size]byte, n)` fills every ring-buffer slot with. -/
def zeroDigest : Digest := List.replicate 32 0

/-- Models `map[[sha256.Size]byte]int`. -/
abbrev Lookup := Digest → Option Nat

/-- A Go map read `m[k]` in value position: yields the `int` zero value `0`
when the key is absent (as in `d.lookup[d.buffer[d.index]]` on line 50). -/
def mapGetD (m : Lookup) (k : Digest) : Nat := (m k).getD 0

/-- Go map assignment `m[k] = v` (line 56). -/
def mapInsert (m : Lookup) (k : Digest) (v : Nat) : Lookup :=
  fun x => if x = k then some v else m x

/-- Go `delete(m, k)` (line 51); deleting an absent key is a no-op. -/
def mapDelete (m : Lookup) (k : Digest) : Lookup :=
  fun x => if x = k then none else m x

/-- The `deterministic` struct (lines 24-30 of src/dejavu.go).  The mutex
carries no state under the serialized semantics and is omitted. -/
@[ext] structure Deterministic where
  buffer : List Digest
  size : Nat
  index : Nat
  lookup : Lookup

/-- `NewDejaVuDeterministic` (lines 34-42): pre-allocates `entrieLimit`
zero-valued slots, sets `size`, starts the cursor at 0 with an empty map.
Construction is total: Go performs no capacity validation. -/
def NewDejaVuDeterministic (entrieLimit : Nat) : Deterministic :=
  { buffer := List.replicate entrieLimit zeroDigest
    size := entrieLimit
    index := 0
    lookup := fun _ => none }

/-- The digest currently occupying the slot about to be overwritten,
`d.buffer[d.index]` (lines 50/55); in-bounds whenever `index < length`. -/
def occupant (d : Deterministic) : Digest := (d.buffer[d.index]?).getD zeroDigest

/-- The pruning branch condition of lines 49-50:
`maxed && (d.lookup[d.buffer[d.index]] == d.index)`, where `maxed` is
`len(d.buffer) == d.size` and the map read defaults to 0 on absent keys. -/
def pruneFires (d : Deterministic) : Bool :=
  (d.buffer.length == d.size) && (mapGetD d.lookup (occupant d) == d.index)

/-- The state mutation performed by `WitnessDigest` (lines 49-57): prune the
stale entry for the overwritten slot if the branch fires, write the digest
into the cursor slot, point the lookup map at it, advance the cursor. -/
def stepState (d : Deterministic) (dataDigest : Digest) : Deterministic :=
  { buffer := d.buffer.set d.index dataDigest
    size := d.size
    index := (d.index + 1) % d.size
    lookup := mapInsert
      (if pruneFires d then mapDelete d.lookup (occupant d) else d.lookup)
      dataDigest d.index }

/-- `WitnessDigest` (lines 44-61): reads familiarity from the lookup map
before mutating, then performs `stepState`.  Returns `none` when the Go
code would panic (`d.buffer[d.index]` out of range, or `% d.size` with
`size = 0`), which happens exactly for a zero-capacity instance. -/
def WitnessDigest (d : Deterministic) (dataDigest : Digest) :
    Option (Bool × Deterministic) :=
  if d.index < d.buffer.length ∧ 0 < d.size then
    some ((d.lookup dataDigest).isSome, stepState d dataDigest)
  else none

/-- `Witness` (lines 63-65): hash the raw bytes and defer to
`WitnessDigest`.  The sha256 collaborator is external to the repository,
so the definition is parametrized by it. -/
def Witness (hash : ByteSeq → Digest) (d : Deterministic) (data : ByteSeq) :
    Option (Bool × Deterministic) :=
  WitnessDigest d (hash data)

/-- Run a sequence of `WitnessDigest` calls, collecting the returned
booleans; `none` if any call panics. -/
def runList : Deterministic → List Digest → Option (List Bool × Deterministic)
  | s, [] => some ([], s)
  | s, d :: ds =>
    (WitnessDigest s d).bind fun p =>
      (runList p.2 ds).map fun q => (p.1 :: q.1, q.2)

/-- The state after a sequence of `WitnessDigest` calls. -/
def runState (s : Deterministic) (ds : List Digest) : Option Deterministic :=
  (runList s ds).map Prod.snd

/-- The sequence of results of a sequence of `WitnessDigest` calls. -/
def runOuts (s : Deterministic) (ds : List Digest) : Option (List Bool) :=
  (runList s ds).map Prod.fst

/-- Run a sequence of `Witness` (raw bytes) calls. -/
def runWitness (hash : ByteSeq → Digest) :
    Deterministic → List ByteSeq → Option (List Bool × Deterministic)
  | s, [] => some ([], s)
  | s, b :: bs =>
    (Witness hash s b).bind fun p =>
      (runWitness hash p.2 bs).map fun q => (p.1 :: q.1, q.2)

/-- A concrete injective-on-bytes digest family used for concrete runs:
32 copies of the byte `n % 256`. -/
def natDigest (n : Nat) : Digest := List.replicate 32 ⟨n % 256, Nat.mod_lt _ (by decide)⟩

/-- The absolute position of the last occurrence of `g` in `ds` (the slot
the lookup map associates with `g` after the list is written in order). -/
def lastIdx : List Digest → Digest → Option Nat
  | [], _ => none
  | d :: t, g =>
    match lastIdx t g with
    | some i => some (i + 1)
    | none => if d = g then some 0 else none

example : runOuts (NewDejaVuDeterministic 3)
    [natDigest 0, natDigest 1, natDigest 0, natDigest 2, natDigest 1] =
    some [false, false, true, false, true] := by decide

example : runOuts (NewDejaVuDeterministic 1)
    [natDigest 0, natDigest 0, natDigest 1, natDigest 0] =
    some [false, true, false, false] := by decide

example : WitnessDigest (NewDejaVuDeterministic 0) zeroDigest = none := rfl

example : pruneFires (NewDejaVuDeterministic 2) = true := by decide

/-! ## Basic lemmas about the components -/

theorem mapInsert_self (m : Lookup) (k : Digest) (v : Nat) :
    mapInsert m k v k = some v := by simp [mapInsert]

theorem mapInsert_ne (m : Lookup) (k : Digest) (v : Nat) {x : Digest}
    (h : x ≠ k) : mapInsert m k v x = m x := by simp [mapInsert, h]

theorem mapDelete_eq_self {m : Lookup} {k : Digest} (h : m k = none) :
    ∀ x, mapDelete m k x = m x := by
  intro x
  by_cases hx : x = k
  · subst hx; simp [mapDelete, h]
  · simp [mapDelete, hx]

theorem stepState_lookup (s : Deterministic) (d g : Digest) :
    (stepState s d).lookup g =
      if g = d then some s.index
      else (if pruneFires s then mapDelete s.lookup (occupant s) else s.lookup) g :=
  rfl

theorem stepState_buffer (s : Deterministic) (d : Digest) :
    (stepState s d).buffer = s.buffer.set s.index d := rfl

theorem stepState_index (s : Deterministic) (d : Digest) :
    (stepState s d).index = (s.index + 1) % s.size := rfl

theorem stepState_size (s : Deterministic) (d : Digest) :
    (stepState s d).size = s.size := rfl

theorem witnessDigest_eq {s : Deterministic} (d : Digest)
    (h1 : s.index < s.buffer.length) (h2 : 0 < s.size) :
    WitnessDigest s d = some ((s.lookup d).isSome, stepState s d) := by
  unfold WitnessDigest
  rw [if_pos ⟨h1, h2⟩]

theorem occupant_spec {s : Deterministic} (h : s.index < s.buffer.length) :
    s.buffer[s.index]? = some (occupant s) := by
  unfold occupant
  rw [List.getElem?_eq_getElem h]
  rfl

/-- A set into a list, read back through `getElem?`. -/
theorem getElem?_set' (l : List Digest) (i j : Nat) (a : Digest)
    (hi : i < l.length) :
    (l.set i a)[j]? = if i = j then some a else l[j]? := by
  rw [List.getElem?_set]
  by_cases h : i = j
  · subst h; simp [hi]
  · simp [h]

/-! ## Run lemmas -/

theorem runList_nil (s : Deterministic) : runList s [] = some ([], s) := rfl

theorem runList_cons (s : Deterministic) (d : Digest) (ds : List Digest) :
    runList s (d :: ds) =
      (WitnessDigest s d).bind fun p =>
        (runList p.2 ds).map fun q => (p.1 :: q.1, q.2) := rfl

theorem runList_append (s : Deterministic) (xs ys : List Digest) :
    runList s (xs ++ ys) =
      (runList s xs).bind fun q =>
        (runList q.2 ys).map fun r => (q.1 ++ r.1, r.2) := by
  induction xs generalizing s with
  | nil =>
    cases h : runList s ys with
    | none => simp [runList_nil, h]
    | some r => simp [runList_nil, h]
  | cons d xs ih =>
    simp only [List.cons_append, runList_cons, ih]
    cases hw : WitnessDigest s d with
    | none => simp
    | some p =>
      simp only [Option.some_bind]
      cases h1 : runList p.2 xs with
      | none => simp
      | some q =>
        simp only [Option.some_bind, Option.map_some']
        cases h2 : runList q.2 ys with
        | none => simp
        | some r => simp

theorem runState_nil (s : Deterministic) : runState s [] = some s := rfl

theorem runState_append_singleton (s : Deterministic) (xs : List Digest)
    (d : Digest) :
    runState s (xs ++ [d]) =
      (runState s xs).bind fun s1 => (WitnessDigest s1 d).map Prod.snd := by
  unfold runState
  rw [runList_append]
  cases h : runList s xs with
  | none => rfl
  | some q =>
    simp only [Option.map_some', Option.some_bind]
    cases hw : WitnessDigest q.2 d with
    | none => simp [runList_cons, hw, runList_nil]
    | some p => simp [runList_cons, hw, runList_nil]

theorem runList_runState {s s' : Deterministic} {ds : List Digest}
    {bs : List Bool} (h : runList s ds = some (bs, s')) :
    runState s ds = some s' := by
  unfold runState
  rw [h]
  rfl

/-! ## `lastIdx` lemmas -/

theorem lastIdx_lt {ds : List Digest} {g : Digest} {i : Nat}
    (h : lastIdx ds g = some i) : i < ds.length := by
  induction ds generalizing i with
  | nil => simp [lastIdx] at h
  | cons d t ih =>
    rw [lastIdx] at h
    cases ht : lastIdx t g with
    | some j =>
      rw [ht] at h
      simp only [Option.some.injEq] at h
      subst h
      have := ih ht
      simp only [List.length_cons]
      omega
    | none =>
      rw [ht] at h
      by_cases hd : d = g
      · rw [if_pos hd] at h
        simp only [Option.some.injEq] at h
        subst h
        simp
      · rw [if_neg hd] at h
        exact absurd h (by simp)

theorem lastIdx_eq_none_iff {ds : List Digest} {g : Digest} :
    lastIdx ds g = none ↔ g ∉ ds := by
  induction ds with
  | nil => simp [lastIdx]
  | cons d t ih =>
    rw [lastIdx]
    cases ht : lastIdx t g with
    | some j =>
      have hm : g ∈ t := by
        by_contra hm
        rw [ih.mpr hm] at ht
        exact absurd ht (by simp)
      simp [hm]
    | none =>
      have hgt : g ∉ t := ih.mp ht
      by_cases hd : d = g
      · subst hd
        simp
      · simp only [if_neg hd, List.mem_cons]
        constructor
        · intro _ hc
          rcases hc with hc | hc
          · exact hd hc.symm
          · exact hgt hc
        · intro _
          trivial

theorem lastIdx_append_singleton (xs : List Digest) (d g : Digest) :
    lastIdx (xs ++ [d]) g =
      if d = g then some xs.length else lastIdx xs g := by
  induction xs with
  | nil =>
    by_cases hd : d = g
    · simp [lastIdx, hd]
    · simp [lastIdx, hd]
  | cons x xs ih =>
    rw [List.cons_append, lastIdx, ih]
    by_cases hd : d = g
    · rw [if_pos hd, if_pos hd]
      simp
    · rw [if_neg hd, if_neg hd, lastIdx]

/-! ## Recency age

`recAge cap c j` is the age of slot `j` relative to cursor `c` in a ring
of `cap` slots: `0` for the slot written most recently (`c - 1` mod `cap`)
up to `cap - 1` for the slot about to be overwritten (`c` itself).  The
lookup map always points at the youngest slot holding a digest; this is
the quantity that makes "youngest" a statement about the current state. -/

def recAge (cap c j : Nat) : Nat := (c + cap - 1 - j) % cap

theorem recAge_lt {cap : Nat} (hcap : 0 < cap) (c j : Nat) :
    recAge cap c j < cap := Nat.mod_lt _ hcap

theorem recAge_self {cap c : Nat} (hcap : 0 < cap) (hc : c < cap) :
    recAge cap c c = cap - 1 := by
  unfold recAge
  have h1 : c + cap - 1 - c = cap - 1 := by omega
  rw [h1, Nat.mod_eq_of_lt (by omega)]

theorem recAge_eq_top_iff {cap c j : Nat} (hcap : 0 < cap) (hc : c < cap)
    (hj : j < cap) : recAge cap c j = cap - 1 ↔ j = c := by
  constructor
  · intro h
    unfold recAge at h
    rcases Nat.lt_or_ge (c + cap - 1 - j) cap with hlt | hge
    · rw [Nat.mod_eq_of_lt hlt] at h
      omega
    · rw [Nat.mod_eq_sub_mod hge, Nat.mod_eq_of_lt (by omega)] at h
      omega
  · intro h
    subst h
    exact recAge_self hcap hc

theorem recAge_rotate_self {cap c : Nat} (_hcap : 0 < cap) (hc : c < cap) :
    recAge cap ((c + 1) % cap) c = 0 := by
  unfold recAge
  rcases Nat.lt_or_ge (c + 1) cap with h | h
  · rw [Nat.mod_eq_of_lt h]
    have h1 : c + 1 + cap - 1 - c = cap := by omega
    rw [h1, Nat.mod_self]
  · have hceq : c + 1 = cap := by omega
    have h0 : (c + 1) % cap = 0 := by rw [hceq, Nat.mod_self]
    rw [h0]
    have h1 : 0 + cap - 1 - c = 0 := by omega
    rw [h1, Nat.zero_mod]

theorem recAge_rotate {cap c x : Nat} (hcap : 0 < cap) (hc : c < cap)
    (hx : x < cap) (hne : x ≠ c) :
    recAge cap ((c + 1) % cap) x = recAge cap c x + 1 := by
  have htop : recAge cap c x ≠ cap - 1 := by
    intro h
    exact hne ((recAge_eq_top_iff hcap hc hx).mp h)
  have hlt : recAge cap c x + 1 < cap := by
    have := recAge_lt hcap c x
    omega
  have key : recAge cap ((c + 1) % cap) x = (recAge cap c x + 1) % cap := by
    unfold recAge
    rcases Nat.lt_or_ge (c + 1) cap with h | h
    · rw [Nat.mod_eq_of_lt h]
      have h1 : c + 1 + cap - 1 - x = (c + cap - 1 - x) + 1 := by omega
      rw [h1, Nat.mod_add_mod]
    · have hceq : c + 1 = cap := by omega
      have h0 : (c + 1) % cap = 0 := by rw [hceq, Nat.mod_self]
      rw [h0]
      have h1 : (c + cap - 1 - x) + 1 = cap + (0 + cap - 1 - x) := by omega
      rw [Nat.mod_add_mod, h1, Nat.add_mod_left]
  rw [key, Nat.mod_eq_of_lt hlt]

/-! ## The reachability invariant

`Inv cap k s` holds of the state after `k` witness calls on a fresh
capacity-`cap` instance.  `min cap k` is the number of slots ever written
(during initial fill the slots `0 … k-1`; all `cap` slots once wrapped). -/

structure Inv (cap k : Nat) (s : Deterministic) : Prop where
  hsize : s.size = cap
  hlen : s.buffer.length = cap
  hidx : s.index = k % cap
  sound : ∀ f i, s.lookup f = some i → i < min cap k ∧ s.buffer[i]? = some f
  complete : ∀ i f, i < min cap k → s.buffer[i]? = some f → (s.lookup f).isSome = true
  newest : ∀ f i j, s.lookup f = some i → j < min cap k → s.buffer[j]? = some f →
    recAge cap s.index i ≤ recAge cap s.index j
  unwritten : ∀ j, min cap k ≤ j → j < cap → s.buffer[j]? = some zeroDigest

theorem inv_init (cap : Nat) : Inv cap 0 (NewDejaVuDeterministic cap) := by
  refine ⟨rfl, by simp [NewDejaVuDeterministic], by simp [NewDejaVuDeterministic],
    ?_, ?_, ?_, ?_⟩
  · intro f i h
    exact absurd h (by simp [NewDejaVuDeterministic])
  · intro i f h
    omega
  · intro f i j h
    exact absurd h (by simp [NewDejaVuDeterministic])
  · intro j _ hj
    simp [NewDejaVuDeterministic, List.getElem?_replicate, hj]

theorem inv_step {cap k : Nat} {s : Deterministic} (hcap : 0 < cap)
    (hI : Inv cap k s) (d : Digest) :
    WitnessDigest s d = some ((s.lookup d).isSome, stepState s d) ∧
      Inv cap (k + 1) (stepState s d) := by
  obtain ⟨hsize, hlen, hidx, hsound, hcomp, hnew, hunw⟩ := hI
  have hc : s.index < cap := by rw [hidx]; exact Nat.mod_lt _ hcap
  have hguard1 : s.index < s.buffer.length := by rw [hlen]; exact hc
  have hguard2 : 0 < s.size := by rw [hsize]; exact hcap
  refine ⟨witnessDigest_eq d hguard1 hguard2, ?_⟩
  have hocc : s.buffer[s.index]? = some (occupant s) := occupant_spec hguard1
  have hWle : min cap k ≤ min cap (k + 1) := by omega
  have hcW : s.index < min cap (k + 1) := by
    rcases Nat.lt_or_ge k cap with h | h
    · rw [hidx, Nat.mod_eq_of_lt h]; omega
    · omega
  have hsplitW : ∀ j, j < min cap (k + 1) → j ≠ s.index → j < min cap k := by
    intro j hj hne
    rcases Nat.lt_or_ge k cap with h | h
    · rw [hidx, Nat.mod_eq_of_lt h] at hne; omega
    · omega
  have hbuf : ∀ j, (stepState s d).buffer[j]? =
      if s.index = j then some d else s.buffer[j]? := by
    intro j
    rw [stepState_buffer]
    exact getElem?_set' s.buffer s.index j d hguard1
  have hlen2 : (stepState s d).buffer.length = cap := by
    rw [stepState_buffer, List.length_set, hlen]
  -- Stripping the prune step: any surviving entry was already present.
  have hstrip : ∀ g m,
      (if pruneFires s then mapDelete s.lookup (occupant s) else s.lookup) g
        = some m → s.lookup g = some m := by
    intro g m hg
    by_cases hf : pruneFires s
    · rw [if_pos hf] at hg
      unfold mapDelete at hg
      by_cases hgo : g = occupant s
      · rw [if_pos hgo] at hg
        exact absurd hg (by simp)
      · rw [if_neg hgo] at hg
        exact hg
    · rw [if_neg hf] at hg
      exact hg
  -- The genuinely stale entry is pruned.
  have hpruned : s.lookup (occupant s) = some s.index →
      (if pruneFires s then mapDelete s.lookup (occupant s) else s.lookup)
        (occupant s) = none := by
    intro ho
    have hf : pruneFires s = true := by
      unfold pruneFires
      simp [hlen, hsize, mapGetD, ho]
    rw [hf, if_pos rfl]
    simp [mapDelete]
  -- Entries other than the stale one survive the prune step.
  have hkeep : ∀ g m, s.lookup g = some m → (g ≠ occupant s ∨ m ≠ s.index) →
      (if pruneFires s then mapDelete s.lookup (occupant s) else s.lookup) g
        = some m := by
    intro g m hg hor
    by_cases hf : pruneFires s
    · rw [if_pos hf]
      unfold mapDelete
      by_cases hgo : g = occupant s
      · exfalso
        have hm : mapGetD s.lookup (occupant s) = s.index := by
          unfold pruneFires at hf
          rw [Bool.and_eq_true] at hf
          exact beq_iff_eq.mp hf.2
        rw [← hgo] at hm
        unfold mapGetD at hm
        rw [hg] at hm
        simp only [Option.getD_some] at hm
        rcases hor with h | h
        · exact h hgo
        · exact h hm
      · rw [if_neg hgo]
        exact hg
    · rw [if_neg hf]
      exact hg
  refine ⟨by rw [stepState_size, hsize], hlen2, ?_, ?_, ?_, ?_, ?_⟩
  · rw [stepState_index, hsize, hidx, Nat.mod_add_mod]
  · -- soundness
    intro f i h
    rw [stepState_lookup] at h
    by_cases hfd : f = d
    · rw [if_pos hfd] at h
      rw [Option.some.injEq] at h
      subst h
      refine ⟨hcW, ?_⟩
      rw [hbuf, if_pos rfl, hfd]
    · rw [if_neg hfd] at h
      have hlf : s.lookup f = some i := hstrip f i h
      obtain ⟨hiW, hbi⟩ := hsound f i hlf
      refine ⟨lt_of_lt_of_le hiW hWle, ?_⟩
      have hinec : s.index ≠ i := by
        intro he
        have hfo : f = occupant s := by
          rw [← he, hocc, Option.some.injEq] at hbi
          exact hbi.symm
        have hnone : (if pruneFires s then mapDelete s.lookup (occupant s)
            else s.lookup) (occupant s) = none :=
          hpruned (by rw [← hfo, hlf, he])
        rw [hfo] at h
        rw [hnone] at h
        exact absurd h (by simp)
      rw [hbuf, if_neg hinec]
      exact hbi
  · -- completeness
    intro i f hiW' hbf
    rw [stepState_lookup]
    rw [hbuf] at hbf
    by_cases hci : s.index = i
    · rw [if_pos hci, Option.some.injEq] at hbf
      subst hbf
      rw [if_pos rfl]
      simp
    · rw [if_neg hci] at hbf
      have hiW : i < min cap k := hsplitW i hiW' (fun he => hci he.symm)
      have hlf := hcomp i f hiW hbf
      obtain ⟨m, hlfv⟩ := Option.isSome_iff_exists.mp hlf
      by_cases hfd : f = d
      · rw [if_pos hfd]
        simp
      · rw [if_neg hfd]
        by_cases hstale : f = occupant s ∧ m = s.index
        · exfalso
          obtain ⟨hfo, hmi⟩ := hstale
          rw [hmi] at hlfv
          have hage := hnew f s.index i hlfv hiW hbf
          rw [recAge_self hcap hc] at hage
          have hlt := recAge_lt hcap s.index i
          have htop : recAge cap s.index i = cap - 1 := by omega
          have hicap : i < cap := by omega
          exact hci ((recAge_eq_top_iff hcap hc hicap).mp htop).symm
        · have hor : f ≠ occupant s ∨ m ≠ s.index := by
            by_cases h1 : f = occupant s
            · right
              intro h2
              exact hstale ⟨h1, h2⟩
            · left
              exact h1
          rw [hkeep f m hlfv hor]
          simp
  · -- newest entry
    intro f i j hlf hjW' hbjf
    rw [stepState_lookup] at hlf
    rw [hbuf] at hbjf
    have hidx2 : (stepState s d).index = (s.index + 1) % cap := by
      rw [stepState_index, hsize]
    rw [hidx2]
    by_cases hfd : f = d
    · rw [if_pos hfd, Option.some.injEq] at hlf
      subst hlf
      rw [recAge_rotate_self hcap hc]
      exact Nat.zero_le _
    · rw [if_neg hfd] at hlf
      have hlfold : s.lookup f = some i := hstrip f i hlf
      obtain ⟨hiW, hbif⟩ := hsound f i hlfold
      have hinec : i ≠ s.index := by
        intro he
        have hfo : f = occupant s := by
          rw [← he] at hocc
          rw [hocc, Option.some.injEq] at hbif
          exact hbif.symm
        have hnone : (if pruneFires s then mapDelete s.lookup (occupant s)
            else s.lookup) (occupant s) = none :=
          hpruned (by rw [← hfo, hlfold, he])
        rw [hfo] at hlf
        rw [hnone] at hlf
        exact absurd hlf (by simp)
      have hjnec : j ≠ s.index := by
        intro he
        rw [if_pos he.symm, Option.some.injEq] at hbjf
        exact hfd hbjf.symm
      have hjW : j < min cap k := hsplitW j hjW' hjnec
      rw [if_neg (fun he => hjnec he.symm)] at hbjf
      have hold := hnew f i j hlfold hjW hbjf
      have hicap : i < cap := by omega
      have hjcap : j < cap := by omega
      rw [recAge_rotate hcap hc hicap hinec, recAge_rotate hcap hc hjcap hjnec]
      omega
  · -- unwritten slots
    intro j hjW' hjcap
    rw [hbuf]
    have hjnec : s.index ≠ j := by omega
    rw [if_neg hjnec]
    exact hunw j (le_trans hWle hjW') hjcap

theorem run_inv {cap : Nat} (hcap : 0 < cap) :
    ∀ (ds : List Digest) (k : Nat) (s0 s : Deterministic), Inv cap k s0 →
      runState s0 ds = some s → Inv cap (k + ds.length) s := by
  intro ds
  induction ds with
  | nil =>
    intro k s0 s hI hrun
    rw [runState_nil, Option.some.injEq] at hrun
    subst hrun
    simpa using hI
  | cons d ds ih =>
    intro k s0 s hI hrun
    obtain ⟨hw, hI2⟩ := inv_step hcap hI d
    have hstep : runState s0 (d :: ds) = runState (stepState s0 d) ds := by
      unfold runState
      rw [runList_cons, hw]
      simp only [Option.some_bind]
      cases h : runList (stepState s0 d) ds with
      | none => rfl
      | some q => rfl
    rw [hstep] at hrun
    have harith : k + (d :: ds).length = k + 1 + ds.length := by
      simp [List.length_cons]
      omega
    rw [harith]
    exact ih (k + 1) (stepState s0 d) s hI2 hrun

theorem run_inv_fresh {cap : Nat} (hcap : 0 < cap) {ds : List Digest}
    {s : Deterministic}
    (hrun : runState (NewDejaVuDeterministic cap) ds = some s) :
    Inv cap ds.length s := by
  have := run_inv hcap ds 0 _ s (inv_init cap) hrun
  simpa using this

/-! ## The fill lemma

Running any list of digests (of length at most the capacity) from a fresh
instance writes them into consecutive slots, leaves the remaining slots at
the zero digest, and makes the lookup map associate each digest with its
last occurrence in the list. -/

theorem runState_fill {cap : Nat} (hcap : 0 < cap) :
    ∀ ds : List Digest, ds.length ≤ cap →
      ∃ s, runState (NewDejaVuDeterministic cap) ds = some s ∧
        s.size = cap ∧ s.buffer.length = cap ∧ s.index = ds.length % cap ∧
        (∀ j, j < ds.length → s.buffer[j]? = ds[j]?) ∧
        (∀ j, ds.length ≤ j → j < cap → s.buffer[j]? = some zeroDigest) ∧
        (∀ g, s.lookup g = lastIdx ds g) := by
  intro ds
  induction ds using List.reverseRecOn with
  | nil =>
    intro _
    refine ⟨NewDejaVuDeterministic cap, runState_nil _, rfl, ?_, ?_, ?_, ?_, ?_⟩
    · simp [NewDejaVuDeterministic]
    · simp [NewDejaVuDeterministic]
    · intro j hj
      simp at hj
    · intro j _ hj
      simp [NewDejaVuDeterministic, List.getElem?_replicate, hj]
    · intro g
      simp [NewDejaVuDeterministic, lastIdx]
  | append_singleton xs d ih =>
    intro hlen
    have hxs : xs.length < cap := by
      simp [List.length_append] at hlen
      omega
    obtain ⟨s1, hrun1, hsz, hbl, hix, hpre, hunw, hlk⟩ := ih (le_of_lt hxs)
    have hix' : s1.index = xs.length := by
      rw [hix, Nat.mod_eq_of_lt hxs]
    have hg1 : s1.index < s1.buffer.length := by
      rw [hix', hbl]
      exact hxs
    have hg2 : 0 < s1.size := by
      rw [hsz]
      exact hcap
    have hoz : occupant s1 = zeroDigest := by
      have hz := hunw xs.length (le_refl _) hxs
      unfold occupant
      rw [hix', hz]
      rfl
    have hl1 : ∀ g, (if pruneFires s1 then mapDelete s1.lookup (occupant s1)
        else s1.lookup) g = s1.lookup g := by
      intro g
      by_cases hf : pruneFires s1
      · rw [if_pos hf]
        have hz : s1.lookup (occupant s1) = none := by
          rw [hoz]
          cases hlz : s1.lookup zeroDigest with
          | none => rfl
          | some j =>
            exfalso
            unfold pruneFires at hf
            rw [Bool.and_eq_true] at hf
            have hm := beq_iff_eq.mp hf.2
            unfold mapGetD at hm
            rw [hoz, hlz] at hm
            simp only [Option.getD_some] at hm
            rw [hlk] at hlz
            have hjb := lastIdx_lt hlz
            rw [hix'] at hm
            omega
        exact mapDelete_eq_self hz g
      · rw [if_neg hf]
    have hw := witnessDigest_eq d hg1 hg2
    refine ⟨stepState s1 d, ?_, ?_, ?_, ?_, ?_, ?_, ?_⟩
    · rw [runState_append_singleton, hrun1]
      simp only [Option.some_bind]
      rw [hw]
      rfl
    · rw [stepState_size, hsz]
    · rw [stepState_buffer, List.length_set, hbl]
    · rw [stepState_index, hsz, hix']
      simp [List.length_append]
    · intro j hj
      rw [stepState_buffer, getElem?_set' _ _ _ _ hg1, hix']
      by_cases hje : xs.length = j
      · rw [if_pos hje, ← hje, List.getElem?_concat_length]
      · rw [if_neg hje]
        have hjlt : j < xs.length := by
          simp [List.length_append] at hj
          omega
        rw [hpre j hjlt, List.getElem?_append, if_pos hjlt]
    · intro j hj1 hj2
      rw [stepState_buffer, getElem?_set' _ _ _ _ hg1, hix']
      have hne : xs.length ≠ j := by
        simp [List.length_append] at hj1
        omega
      rw [if_neg hne]
      refine hunw j ?_ hj2
      simp [List.length_append] at hj1
      omega
    · intro g
      rw [stepState_lookup, hix', lastIdx_append_singleton]
      by_cases hgd : g = d
      · subst hgd
        simp
      · rw [if_neg hgd, hl1 g, hlk g]
        rw [if_neg (fun h : d = g => hgd h.symm)]

/-! ## Helpers for runs over families of distinct digests -/

/-- `ascSeq D s r = [D s, D (s+1), …, D (s+r-1)]`. -/
def ascSeq (D : Nat → Digest) : Nat → Nat → List Digest
  | _, 0 => []
  | start, r + 1 => D start :: ascSeq D (start + 1) r

theorem ascSeq_eq (D : Nat → Digest) :
    ∀ r s, ascSeq D s r = (List.range r).map fun i => D (i + s) := by
  intro r
  induction r with
  | zero =>
    intro s
    rfl
  | succ r ih =>
    intro s
    rw [ascSeq, List.range_succ_eq_map, List.map_cons, ih (s + 1), List.map_map]
    congr 1
    · congr 1
      omega
    · apply List.map_congr_left
      intro i _
      simp only [Function.comp_apply]
      congr 1
      omega

theorem lastIdx_map_range {n : Nat} {D : Nat → Digest}
    (hinj : ∀ a b, a < n → b < n → D a = D b → a = b) :
    ∀ j, j < n → lastIdx ((List.range n).map D) (D j) = some j := by
  induction n with
  | zero =>
    intro j hj
    omega
  | succ n ih =>
    intro j hj
    rw [List.range_succ, List.map_append]
    simp only [List.map_cons, List.map_nil]
    rw [lastIdx_append_singleton]
    by_cases hjn : j = n
    · subst hjn
      rw [if_pos rfl]
      simp
    · have hjlt : j < n := by omega
      rw [if_neg (fun h : D n = D j =>
        hjn (hinj n j (by omega) (by omega) h).symm)]
      exact ih (fun a b ha hb => hinj a b (by omega) (by omega)) j hjlt

theorem lastIdx_map_range_none {n : Nat} {D : Nat → Digest} {g : Digest}
    (h : ∀ j, j < n → D j ≠ g) : lastIdx ((List.range n).map D) g = none := by
  rw [lastIdx_eq_none_iff]
  intro hmem
  rw [List.mem_map] at hmem
  obtain ⟨a, ha, hga⟩ := hmem
  rw [List.mem_range] at ha
  exact h a ha hga

/-- Running pairwise-distinct digests into a fresh instance (no more than
capacity of them) returns `false` for every single call. -/
theorem runFresh_nodup {cap : Nat} (hcap : 0 < cap) :
    ∀ ds : List Digest, ds.Nodup → ds.length ≤ cap →
      ∃ s, runList (NewDejaVuDeterministic cap) ds
        = some (List.replicate ds.length false, s) := by
  intro ds
  induction ds using List.reverseRecOn with
  | nil =>
    intro _ _
    exact ⟨NewDejaVuDeterministic cap, rfl⟩
  | append_singleton xs d ih =>
    intro hnd hlen
    have hnd' : xs.Nodup ∧ d ∉ xs := by
      rw [List.nodup_append] at hnd
      exact ⟨hnd.1, fun hm => hnd.2.2 hm (by simp)⟩
    have hxslen : xs.length ≤ cap := by
      simp [List.length_append] at hlen
      omega
    obtain ⟨s1, hrun1⟩ := ih hnd'.1 hxslen
    obtain ⟨s2, hrun2, hsz, hbl, hix, _, _, hlk⟩ := runState_fill hcap xs hxslen
    have hs12 : s1 = s2 := by
      have heq := (runList_runState hrun1).symm.trans hrun2
      rw [Option.some.injEq] at heq
      exact heq
    subst hs12
    have hg1 : s1.index < s1.buffer.length := by
      rw [hix, hbl]
      exact Nat.mod_lt _ hcap
    have hg2 : 0 < s1.size := by
      rw [hsz]
      exact hcap
    have hfam : (s1.lookup d).isSome = false := by
      rw [hlk, lastIdx_eq_none_iff.mpr hnd'.2]
      rfl
    refine ⟨stepState s1 d, ?_⟩
    rw [runList_append, hrun1]
    simp only [Option.some_bind]
    rw [runList_cons, witnessDigest_eq d hg1 hg2]
    simp only [Option.some_bind, runList_nil, Option.map_some']
    rw [hfam]
    simp [List.replicate_succ', List.length_append]

/-- The re-witnessing loop behind the FIFO-eviction property: from the
state reached after `D 0 … D (N-1), D N` (whose slot `0` holds `D N` and
slot `j` holds `D j` otherwise), witnessing `D (m+1), …, D N` in order
returns `true` every time, because each call rewrites exactly the slot
that already holds its digest. -/
theorem loop_true {N : Nat} {D : Nat → Digest} (hN : 0 < N)
    (hinj : ∀ a b, a ≤ N → b ≤ N → D a = D b → a = b) :
    ∀ r m s, m + r = N →
      s.size = N → s.buffer.length = N → s.index = (1 + m) % N →
      (∀ j, j < N → s.buffer[j]? = some (if j = 0 then D N else D j)) →
      s.lookup (D N) = some 0 →
      (∀ j, 1 ≤ j → j < N → s.lookup (D j) = some j) →
      ∃ sf, runList s (ascSeq D (m + 1) r)
        = some (List.replicate r true, sf) := by
  intro r
  induction r with
  | zero =>
    intro m s _ _ _ _ _ _ _
    exact ⟨s, by simp [ascSeq, runList_nil]⟩
  | succ r ih =>
    intro m s hmr hsz hbl hix hbuf hlkN hlkj
    have hmlt : m + 1 ≤ N := by omega
    have hcN : s.index < N := by
      rw [hix]
      exact Nat.mod_lt _ hN
    have hcursor : (m + 1 < N ∧ s.index = m + 1) ∨ (m + 1 = N ∧ s.index = 0) := by
      rcases Nat.lt_or_ge (m + 1) N with h | h
      · left
        refine ⟨h, ?_⟩
        rw [hix, Nat.mod_eq_of_lt (by omega)]
        omega
      · right
        have he : 1 + m = N := by omega
        refine ⟨by omega, ?_⟩
        rw [hix, he, Nat.mod_self]
    have hbufc : s.buffer[s.index]? = some (D (m + 1)) := by
      rcases hcursor with ⟨h1, h2⟩ | ⟨h1, h2⟩
      · rw [h2, hbuf (m + 1) h1]
        simp
      · rw [h2, hbuf 0 hN, if_pos rfl, h1]
    have hlkc : s.lookup (D (m + 1)) = some s.index := by
      rcases hcursor with ⟨h1, h2⟩ | ⟨h1, h2⟩
      · rw [h2]
        exact hlkj (m + 1) (by omega) h1
      · rw [h2, h1]
        exact hlkN
    have hg1 : s.index < s.buffer.length := by
      rw [hbl]
      exact hcN
    have hg2 : 0 < s.size := by
      rw [hsz]
      exact hN
    have hocc : occupant s = D (m + 1) := by
      unfold occupant
      rw [hbufc]
      rfl
    have hlk2 : ∀ g, (stepState s (D (m + 1))).lookup g
        = if g = D (m + 1) then some s.index else s.lookup g := by
      intro g
      rw [stepState_lookup]
      by_cases hg : g = D (m + 1)
      · rw [if_pos hg, if_pos hg]
      · rw [if_neg hg, if_neg hg]
        by_cases hf : pruneFires s
        · rw [if_pos hf]
          unfold mapDelete
          rw [hocc, if_neg hg]
        · rw [if_neg hf]
    have hbuf2 : ∀ j, j < N → (stepState s (D (m + 1))).buffer[j]?
        = some (if j = 0 then D N else D j) := by
      intro j hj
      rw [stepState_buffer, getElem?_set' _ _ _ _ hg1]
      by_cases hcj : s.index = j
      · rw [if_pos hcj]
        rcases hcursor with ⟨h1, h2⟩ | ⟨h1, h2⟩
        · rw [h2] at hcj
          rw [← hcj]
          simp
        · rw [h2] at hcj
          rw [← hcj, if_pos rfl, h1]
      · rw [if_neg hcj]
        exact hbuf j hj
    have hw := witnessDigest_eq (D (m + 1)) hg1 hg2
    have hfam : (s.lookup (D (m + 1))).isSome = true := by
      rw [hlkc]
      rfl
    have hix2 : (stepState s (D (m + 1))).index = (1 + (m + 1)) % N := by
      rw [stepState_index, hsz, hix, Nat.mod_add_mod]
      have harith : 1 + m + 1 = 1 + (m + 1) := by omega
      rw [harith]
    have hlkN2 : (stepState s (D (m + 1))).lookup (D N) = some 0 := by
      rw [hlk2]
      by_cases hg : D N = D (m + 1)
      · rw [if_pos hg]
        have hNe : N = m + 1 := hinj N (m + 1) (le_refl N) hmlt hg
        rcases hcursor with ⟨h1, _⟩ | ⟨_, h2⟩
        · omega
        · rw [h2]
      · rw [if_neg hg]
        exact hlkN
    have hlkj2 : ∀ j, 1 ≤ j → j < N →
        (stepState s (D (m + 1))).lookup (D j) = some j := by
      intro j h1j hjN
      rw [hlk2]
      by_cases hg : D j = D (m + 1)
      · rw [if_pos hg]
        have hje : j = m + 1 := hinj j (m + 1) (by omega) hmlt hg
        rcases hcursor with ⟨hh1, hh2⟩ | ⟨hh1, hh2⟩
        · rw [hh2, ← hje]
        · omega
      · rw [if_neg hg]
        exact hlkj j h1j hjN
    obtain ⟨sf, hrest⟩ := ih (m + 1) (stepState s (D (m + 1))) (by omega)
      (by rw [stepState_size, hsz])
      (by rw [stepState_buffer, List.length_set, hbl])
      hix2 hbuf2 hlkN2 hlkj2
    refine ⟨sf, ?_⟩
    rw [ascSeq, runList_cons, hw]
    simp only [Option.some_bind]
    rw [hrest]
    simp only [Option.map_some']
    rw [hfam, List.replicate_succ]

/-- Relating the raw-bytes run to the digest run: `runWitness` is the
digest run of the hashed inputs, by definition of `Witness`. -/
theorem runWitness_eq_runList (hash : ByteSeq → Digest) :
    ∀ (bs : List ByteSeq) (s : Deterministic),
      runWitness hash s bs = runList s (bs.map hash) := by
  intro bs
  induction bs with
  | nil =>
    intro s
    rfl
  | cons b bs ih =>
    intro s
    simp only [List.map_cons, runWitness, runList, Witness, ih]

/-! ## The claims -/

/-- Claim C1: for every instance constructed with capacity ≥ 1 and every
sequence of prior witness calls, `WitnessDigest f` returns `true` iff `f`
was present in the retention window immediately before the call — the
window being the contents of the slots written so far (`min cap k` slots
after `k` calls; unwritten slots are not retained content) — and
afterwards `f` is recorded as the newest entry: its lookup entry points at
the slot just written, which holds `f`, regardless of the returned value. -/
theorem claim_C1 (cap : Nat) (hcap : 1 ≤ cap) (ds : List Digest)
    (s : Deterministic)
    (hrun : runState (NewDejaVuDeterministic cap) ds = some s) (f : Digest) :
    ∃ b s2, WitnessDigest s f = some (b, s2) ∧
      (b = true ↔ ∃ i, i < min cap ds.length ∧ s.buffer[i]? = some f) ∧
      s2.lookup f = some s.index ∧ s2.buffer[s.index]? = some f := by
  have hI := run_inv_fresh hcap hrun
  obtain ⟨hw, _⟩ := inv_step hcap hI f
  have hg1 : s.index < s.buffer.length := by
    rw [hI.hlen, hI.hidx]
    exact Nat.mod_lt _ hcap
  refine ⟨(s.lookup f).isSome, stepState s f, hw, ?_, ?_, ?_⟩
  · constructor
    · intro hb
      obtain ⟨i, hi⟩ := Option.isSome_iff_exists.mp hb
      obtain ⟨hiW, hbi⟩ := hI.sound f i hi
      exact ⟨i, hiW, hbi⟩
    · intro hex
      obtain ⟨i, hiW, hbi⟩ := hex
      exact hI.complete i f hiW hbi
  · rw [stepState_lookup, if_pos rfl]
  · rw [stepState_buffer, getElem?_set' _ _ _ _ hg1, if_pos rfl]

theorem claim_C1_witness : ∃ b s2,
    WitnessDigest (NewDejaVuDeterministic 1) zeroDigest = some (b, s2) ∧
    (b = true ↔ ∃ i, i < min 1 0 ∧
      (NewDejaVuDeterministic 1).buffer[i]? = some zeroDigest) ∧
    s2.lookup zeroDigest = some (NewDejaVuDeterministic 1).index ∧
    s2.buffer[(NewDejaVuDeterministic 1).index]? = some zeroDigest :=
  claim_C1 1 (by decide) [] (NewDejaVuDeterministic 1) rfl zeroDigest

/-- Claim C2: FIFO eviction.  With `D 0 … D N` standing for the claim's
pairwise-distinct `D1 … D(N+1)`: after witnessing `D 0 … D (N-1)` and then
`D N` on a fresh capacity-`N` instance, a witness check of `D 0` returns
`false` (evicted), while witnessing `D 1 … D N` in that order returns
`true` every time.  The two checks are alternative continuations from the
state reached after the `N+1` writes, since each check itself inserts. -/
theorem claim_C2 (N : Nat) (D : Nat → Digest) (hN : 1 ≤ N)
    (hinj : ∀ a b, a ≤ N → b ≤ N → D a = D b → a = b) :
    ∃ s0 s1,
      runState (NewDejaVuDeterministic N) ((List.range N).map D) = some s0 ∧
      WitnessDigest s0 (D N) = some (false, s1) ∧
      (WitnessDigest s1 (D 0)).map Prod.fst = some false ∧
      ∃ s2, runList s1 ((List.range N).map fun i => D (i + 1))
        = some (List.replicate N true, s2) := by
  have hN0 : 0 < N := hN
  have hinjlt : ∀ a b, a < N → b < N → D a = D b → a = b :=
    fun a b ha hb h => hinj a b (by omega) (by omega) h
  have hdslen : ((List.range N).map D).length = N := by
    simp
  obtain ⟨s0, hrun0, hsz, hbl, hix, hpre, _, hlk⟩ :=
    runState_fill hN0 ((List.range N).map D) (le_of_eq hdslen)
  have hix0 : s0.index = 0 := by
    rw [hix, hdslen, Nat.mod_self]
  have hbufval : ∀ j, j < N → s0.buffer[j]? = some (D j) := by
    intro j hj
    rw [hpre j (by rw [hdslen]; exact hj), List.getElem?_map,
      List.getElem?_range hj]
    rfl
  have hg1 : s0.index < s0.buffer.length := by
    rw [hix0, hbl]
    exact hN0
  have hg2 : 0 < s0.size := by
    rw [hsz]
    exact hN0
  have hlkDN : s0.lookup (D N) = none := by
    rw [hlk]
    exact lastIdx_map_range_none
      (fun j hj h => by have := hinj j N (by omega) (le_refl N) h; omega)
  have hlkD0 : s0.lookup (D 0) = some 0 := by
    rw [hlk]
    exact lastIdx_map_range hinjlt 0 hN0
  have hocc0 : occupant s0 = D 0 := by
    unfold occupant
    rw [hix0, hbufval 0 hN0]
    rfl
  have hw0 : WitnessDigest s0 (D N) = some (false, stepState s0 (D N)) := by
    rw [witnessDigest_eq (D N) hg1 hg2, hlkDN]
    rfl
  have hfires : pruneFires s0 = true := by
    unfold pruneFires
    rw [hbl, hsz, hocc0]
    unfold mapGetD
    rw [hlkD0, hix0]
    simp
  have hlk1 : ∀ g, (stepState s0 (D N)).lookup g
      = if g = D N then some 0
        else if g = D 0 then none else s0.lookup g := by
    intro g
    rw [stepState_lookup, hix0, hfires, if_pos rfl]
    by_cases hg : g = D N
    · rw [if_pos hg, if_pos hg]
    · rw [if_neg hg, if_neg hg]
      unfold mapDelete
      rw [hocc0]
  have hbuf1 : ∀ j, j < N → (stepState s0 (D N)).buffer[j]?
      = some (if j = 0 then D N else D j) := by
    intro j hj
    rw [stepState_buffer, getElem?_set' _ _ _ _ hg1, hix0]
    by_cases hj0 : j = 0
    · subst hj0
      rw [if_pos rfl, if_pos rfl]
    · rw [if_neg (fun h : (0 : Nat) = j => hj0 h.symm), if_neg hj0]
      exact hbufval j hj
  have hD0N : D 0 ≠ D N := by
    intro h
    have := hinj 0 N (by omega) (le_refl N) h
    omega
  have hlk1D0 : (stepState s0 (D N)).lookup (D 0) = none := by
    rw [hlk1, if_neg hD0N, if_pos rfl]
  have hlk1DN : (stepState s0 (D N)).lookup (D N) = some 0 := by
    rw [hlk1, if_pos rfl]
  have hlk1j : ∀ j, 1 ≤ j → j < N →
      (stepState s0 (D N)).lookup (D j) = some j := by
    intro j h1j hjN
    rw [hlk1]
    rw [if_neg (fun h : D j = D N => by
      have := hinj j N (by omega) (le_refl N) h
      omega)]
    rw [if_neg (fun h : D j = D 0 => by
      have := hinj j 0 (by omega) (by omega) h
      omega)]
    rw [hlk]
    exact lastIdx_map_range hinjlt j hjN
  have hix1 : (stepState s0 (D N)).index = (1 + 0) % N := by
    rw [stepState_index, hsz, hix0]
  have hsz1 : (stepState s0 (D N)).size = N := by
    rw [stepState_size, hsz]
  have hbl1 : (stepState s0 (D N)).buffer.length = N := by
    rw [stepState_buffer, List.length_set, hbl]
  have hg1b : (stepState s0 (D N)).index < (stepState s0 (D N)).buffer.length := by
    rw [hix1, hbl1]
    exact Nat.mod_lt _ hN0
  have hg2b : 0 < (stepState s0 (D N)).size := by
    rw [hsz1]
    exact hN0
  have hparta : (WitnessDigest (stepState s0 (D N)) (D 0)).map Prod.fst
      = some false := by
    rw [witnessDigest_eq (D 0) hg1b hg2b]
    simp only [Option.map_some']
    rw [hlk1D0]
    rfl
  obtain ⟨s2, hloop⟩ := loop_true hN0 hinj N 0 (stepState s0 (D N))
    (by omega) hsz1 hbl1 hix1 hbuf1 hlk1DN hlk1j
  rw [ascSeq_eq] at hloop
  exact ⟨s0, stepState s0 (D N), hrun0, hw0, hparta, s2, hloop⟩

theorem claim_C2_witness : ∃ s0 s1,
    runState (NewDejaVuDeterministic 1)
      ((List.range 1).map natDigest) = some s0 ∧
    WitnessDigest s0 (natDigest 1) = some (false, s1) ∧
    (WitnessDigest s1 (natDigest 0)).map Prod.fst = some false ∧
    ∃ s2, runList s1 ((List.range 1).map fun i => natDigest (i + 1))
      = some (List.replicate 1 true, s2) :=
  claim_C2 1 natDigest (by decide)
    (fun a b ha hb h => by
      interval_cases a <;> interval_cases b <;> revert h <;> decide)

/-- Claim C3 names a code bug: the spec mandates that constructing with
capacity 0 fail with a configuration error, but `NewDejaVuDeterministic 0`
performs no validation and returns an instance (with `size = 0`), and the
first `WitnessDigest` call on it panics (index out of range on the empty
ring, modelled as `none`) — a runtime failure on first call, exactly what
the spec says must not happen. -/
theorem claim_C3 : (NewDejaVuDeterministic 0).size = 0 ∧
    ∀ d : Digest, WitnessDigest (NewDejaVuDeterministic 0) d = none := by
  refine ⟨rfl, fun d => ?_⟩
  rfl

/-- Claim C4: the two entry points are behaviorally identical — `Witness`
is definitionally `WitnessDigest` of the hashed bytes, for each single
call and for every call sequence, whatever the hash collaborator is. -/
theorem claim_C4 (hash : ByteSeq → Digest) (s : Deterministic) :
    (∀ data, Witness hash s data = WitnessDigest s (hash data)) ∧
    ∀ bs : List ByteSeq, runWitness hash s bs = runList s (bs.map hash) :=
  ⟨fun _ => rfl, fun bs => runWitness_eq_runList hash bs s⟩

/-- Claim C5: index soundness.  In every state reachable by witness calls
on a capacity-≥-1 instance, every lookup entry `f ↦ i` satisfies
`buffer[i] = f`, and any further witness call preserves this. -/
theorem claim_C5 (cap : Nat) (hcap : 1 ≤ cap) (ds : List Digest)
    (s : Deterministic)
    (hrun : runState (NewDejaVuDeterministic cap) ds = some s) :
    (∀ f i, s.lookup f = some i → s.buffer[i]? = some f) ∧
    ∀ d b s2, WitnessDigest s d = some (b, s2) →
      ∀ f i, s2.lookup f = some i → s2.buffer[i]? = some f := by
  have hI := run_inv_fresh hcap hrun
  refine ⟨fun f i h => (hI.sound f i h).2, ?_⟩
  intro d b s2 hw f i h
  obtain ⟨hw2, hI2⟩ := inv_step hcap hI d
  rw [hw2, Option.some.injEq, Prod.mk.injEq] at hw
  rw [← hw.2] at h ⊢
  exact (hI2.sound f i h).2

theorem claim_C5_witness :
    ((∀ f i, (NewDejaVuDeterministic 2).lookup f = some i →
        (NewDejaVuDeterministic 2).buffer[i]? = some f) ∧
      ∀ d b s2, WitnessDigest (NewDejaVuDeterministic 2) d = some (b, s2) →
        ∀ f i, s2.lookup f = some i → s2.buffer[i]? = some f) :=
  claim_C5 2 (by decide) [] (NewDejaVuDeterministic 2) rfl

/-- Claim C6 is refuted at capacity `N = 3` with `D1, D2, D3` taken to be
`natDigest 1, natDigest 2, natDigest 3`.  After the sequence
`D1, D2, D1` and the subsequent distinct `D3` (fourth result `false`), a
later `witness(D2)` check returns `true` — `D2` is still in the window —
whereas the claim asserts that `D3` evicts `D2` and that the check finds
it unfamiliar.  `D3` actually overwrites the stale slot-0 copy of `D1`. -/
theorem claim_C6_counterexample :
    runOuts (NewDejaVuDeterministic 3)
        [natDigest 1, natDigest 2, natDigest 1, natDigest 3, natDigest 2]
      = some [false, false, true, false, true] := by decide

/-- Claim C6, amended: with capacity `N ≥ 2` and pairwise-distinct
`D 0 … D (N-1)` (the claim's `D1 … DN`), after witnessing
`D 0, …, D (N-2), D 0` the subsequent witness of `D (N-1)` returns
`false` and evicts nothing: it overwrites the stale oldest slot (the first
copy of `D 0`).  Both `D 1` (the claim's `D2`) and `D 0` remain familiar:
witness checks of either, from the resulting state, return `true`.
(Evicting `D 1` would take one further distinct write.) -/
theorem claim_C6_amended (N : Nat) (D : Nat → Digest) (hN : 2 ≤ N)
    (hinj : ∀ a b, a < N → b < N → D a = D b → a = b) :
    ∃ s0 s1,
      runState (NewDejaVuDeterministic N)
        ((List.range (N - 1)).map D ++ [D 0]) = some s0 ∧
      WitnessDigest s0 (D (N - 1)) = some (false, s1) ∧
      (WitnessDigest s1 (D 1)).map Prod.fst = some true ∧
      (WitnessDigest s1 (D 0)).map Prod.fst = some true := by
  have hN0 : 0 < N := by omega
  have hinjm : ∀ a b, a < N - 1 → b < N - 1 → D a = D b → a = b :=
    fun a b ha hb h => hinj a b (by omega) (by omega) h
  have hdslen : ((List.range (N - 1)).map D ++ [D 0]).length = N := by
    simp
    omega
  obtain ⟨s0, hrun0, hsz, hbl, hix, hpre, _, hlk⟩ :=
    runState_fill hN0 ((List.range (N - 1)).map D ++ [D 0]) (le_of_eq hdslen)
  have hix0 : s0.index = 0 := by
    rw [hix, hdslen, Nat.mod_self]
  have hlk0 : ∀ g, s0.lookup g =
      if D 0 = g then some (N - 1)
      else lastIdx ((List.range (N - 1)).map D) g := by
    intro g
    rw [hlk, lastIdx_append_singleton]
    simp
  have hlkD0 : s0.lookup (D 0) = some (N - 1) := by
    rw [hlk0, if_pos rfl]
  have hlkDN : s0.lookup (D (N - 1)) = none := by
    rw [hlk0]
    rw [if_neg (fun h : D 0 = D (N - 1) => by
      have := hinj 0 (N - 1) (by omega) (by omega) h
      omega)]
    exact lastIdx_map_range_none
      (fun j hj h => by have := hinj j (N - 1) (by omega) (by omega) h; omega)
  have hbuf0 : s0.buffer[0]? = some (D 0) := by
    rw [hpre 0 (by omega)]
    rw [List.getElem?_append, if_pos (by simp; omega)]
    rw [List.getElem?_map, List.getElem?_range (by omega)]
    rfl
  have hocc0 : occupant s0 = D 0 := by
    unfold occupant
    rw [hix0, hbuf0]
    rfl
  have hnofire : pruneFires s0 = false := by
    unfold pruneFires
    rw [hocc0]
    unfold mapGetD
    rw [hlkD0, hix0]
    simp
    omega
  have hg1 : s0.index < s0.buffer.length := by
    rw [hix0, hbl]
    exact hN0
  have hg2 : 0 < s0.size := by
    rw [hsz]
    exact hN0
  have hw0 : WitnessDigest s0 (D (N - 1))
      = some (false, stepState s0 (D (N - 1))) := by
    rw [witnessDigest_eq (D (N - 1)) hg1 hg2, hlkDN]
    rfl
  have hlk1 : ∀ g, (stepState s0 (D (N - 1))).lookup g
      = if g = D (N - 1) then some 0 else s0.lookup g := by
    intro g
    rw [stepState_lookup, hix0, hnofire]
    rfl
  have hsz1 : (stepState s0 (D (N - 1))).size = N := by
    rw [stepState_size, hsz]
  have hbl1 : (stepState s0 (D (N - 1))).buffer.length = N := by
    rw [stepState_buffer, List.length_set, hbl]
  have hix1 : (stepState s0 (D (N - 1))).index = 1 % N := by
    rw [stepState_index, hsz, hix0]
  have hg1b : (stepState s0 (D (N - 1))).index
      < (stepState s0 (D (N - 1))).buffer.length := by
    rw [hix1, hbl1]
    exact Nat.mod_lt _ hN0
  have hg2b : 0 < (stepState s0 (D (N - 1))).size := by
    rw [hsz1]
    exact hN0
  have hprobe1 : (stepState s0 (D (N - 1))).lookup (D 1) = some 1
      ∨ (stepState s0 (D (N - 1))).lookup (D 1) = some 0 := by
    rw [hlk1]
    by_cases hg : D 1 = D (N - 1)
    · right
      rw [if_pos hg]
    · left
      rw [if_neg hg, hlk0]
      rw [if_neg (fun h : D 0 = D 1 => by
        have := hinj 0 1 (by omega) (by omega) h
        omega)]
      have hn1 : N - 1 ≠ 1 := by
        intro h
        rw [h] at hg
        exact hg rfl
      exact lastIdx_map_range hinjm 1 (by omega)
  have hprobe0 : (stepState s0 (D (N - 1))).lookup (D 0) = some (N - 1) := by
    rw [hlk1]
    rw [if_neg (fun h : D 0 = D (N - 1) => by
      have := hinj 0 (N - 1) (by omega) (by omega) h
      omega)]
    exact hlkD0
  refine ⟨s0, stepState s0 (D (N - 1)), hrun0, hw0, ?_, ?_⟩
  · rw [witnessDigest_eq (D 1) hg1b hg2b]
    simp only [Option.map_some']
    rcases hprobe1 with h | h
    · rw [h]
      rfl
    · rw [h]
      rfl
  · rw [witnessDigest_eq (D 0) hg1b hg2b]
    simp only [Option.map_some']
    rw [hprobe0]
    rfl

theorem claim_C6_amended_witness : ∃ s0 s1,
    runState (NewDejaVuDeterministic 2)
      ((List.range 1).map natDigest ++ [natDigest 0]) = some s0 ∧
    WitnessDigest s0 (natDigest 1) = some (false, s1) ∧
    (WitnessDigest s1 (natDigest 1)).map Prod.fst = some true ∧
    (WitnessDigest s1 (natDigest 0)).map Prod.fst = some true :=
  claim_C6_amended 2 natDigest (by decide)
    (fun a b ha hb h => by
      interval_cases a <;> interval_cases b <;> revert h <;> decide)

/-- Claim C7 is refuted on the very first call: on a fresh capacity-2
instance (a fill-phase state: zero of two insertions made), the pruning
branch condition of lines 49-50 evaluates to `true`, because `maxed` is
always true (`len(buffer) == size` holds by construction) and the Go map
read of the zero-valued unwritten slot returns the `int` zero value `0`,
which equals the cursor `0`.  The branch therefore fires; its `delete` is
a no-op only because the zero digest is absent from the map. -/
theorem claim_C7_counterexample :
    pruneFires (NewDejaVuDeterministic 2) = true := by decide

/-- Claim C7, amended: during initial fill (fewer than `capacity` calls
ever made), no witness call removes any Recency Index entry — every key
present in the lookup map before the call is still present afterwards —
although the pruning branch condition itself can evaluate to `true` (it
does on the very first call), in which case its deletion targets the
absent zero digest and is a no-op. -/
theorem claim_C7_amended (cap : Nat) (hcap : 1 ≤ cap) (ds : List Digest)
    (s : Deterministic) (hfill : ds.length < cap)
    (hrun : runState (NewDejaVuDeterministic cap) ds = some s) (d : Digest) :
    ∃ b s2, WitnessDigest s d = some (b, s2) ∧
      ∀ g, (s.lookup g).isSome = true → (s2.lookup g).isSome = true := by
  have hI := run_inv_fresh hcap hrun
  obtain ⟨hw, _⟩ := inv_step hcap hI d
  refine ⟨_, _, hw, ?_⟩
  intro g hg
  obtain ⟨m, hm⟩ := Option.isSome_iff_exists.mp hg
  rw [stepState_lookup]
  by_cases hgd : g = d
  · rw [if_pos hgd]
    rfl
  · rw [if_neg hgd]
    by_cases hf : pruneFires s
    · rw [if_pos hf]
      unfold mapDelete
      by_cases hgo : g = occupant s
      · exfalso
        have hgetd : mapGetD s.lookup (occupant s) = s.index := by
          unfold pruneFires at hf
          rw [Bool.and_eq_true] at hf
          exact beq_iff_eq.mp hf.2
        rw [← hgo] at hgetd
        unfold mapGetD at hgetd
        rw [hm] at hgetd
        simp only [Option.getD_some] at hgetd
        have hmW := (hI.sound g m hm).1
        have hixval : s.index = ds.length := by
          rw [hI.hidx, Nat.mod_eq_of_lt hfill]
        omega
      · rw [if_neg hgo, hm]
        rfl
    · rw [if_neg hf, hm]
      rfl

theorem claim_C7_amended_witness : ∃ b s2,
    WitnessDigest (NewDejaVuDeterministic 2) zeroDigest = some (b, s2) ∧
    ∀ g, ((NewDejaVuDeterministic 2).lookup g).isSome = true →
      (s2.lookup g).isSome = true :=
  claim_C7_amended 2 (by decide) [] (NewDejaVuDeterministic 2) (by decide)
    rfl zeroDigest

/-- Claim C8: on a capacity-≥-1 instance, every witness call advances the
cursor by exactly one slot modulo the capacity, whatever digest is
witnessed and whether or not it was familiar. -/
theorem claim_C8 (cap : Nat) (hcap : 1 ≤ cap) (ds : List Digest)
    (s : Deterministic)
    (hrun : runState (NewDejaVuDeterministic cap) ds = some s) (d : Digest) :
    ∃ b s2, WitnessDigest s d = some (b, s2) ∧
      s2.index = (s.index + 1) % cap := by
  have hI := run_inv_fresh hcap hrun
  obtain ⟨hw, _⟩ := inv_step hcap hI d
  exact ⟨_, _, hw, by rw [stepState_index, hI.hsize]⟩

theorem claim_C8_witness : ∃ b s2,
    WitnessDigest (NewDejaVuDeterministic 1) (natDigest 0) = some (b, s2) ∧
    s2.index = ((NewDejaVuDeterministic 1).index + 1) % 1 :=
  claim_C8 1 (by decide) [] (NewDejaVuDeterministic 1) rfl (natDigest 0)

/-- Claim C9: concurrency correctness, modelled by the spec's own ordering
guarantee — the exclusive lock totally orders the `N` concurrent calls, so
the observable outcome is that of the calls run sequentially in some
order.  For every such serialization (any duplicate-free list of `N`
digests, covering every interleaving's lock-acquisition order) on a fresh
capacity-`N` instance, exactly `N` calls return `false` and none `true`. -/
theorem claim_C9 (cap : Nat) (hcap : 1 ≤ cap) (ds : List Digest)
    (hnd : ds.Nodup) (hlen : ds.length = cap) :
    ∃ outs s, runList (NewDejaVuDeterministic cap) ds = some (outs, s) ∧
      outs.count false = cap ∧ outs.count true = 0 := by
  obtain ⟨s, hrun⟩ := runFresh_nodup hcap ds hnd (le_of_eq hlen)
  refine ⟨List.replicate ds.length false, s, hrun, ?_, ?_⟩
  · rw [hlen, List.count_replicate_self]
  · rw [List.count_replicate]
    simp

theorem claim_C9_witness : ∃ outs s,
    runList (NewDejaVuDeterministic 1) [natDigest 0] = some (outs, s) ∧
    outs.count false = 1 ∧ outs.count true = 0 :=
  claim_C9 1 (by decide) [natDigest 0] (by decide) (by decide)

/-- Claim C10: on a fresh instance of any capacity ≥ 1, the first witness
of the all-zero digest returns `false`, even though every unwritten
ring-buffer slot holds that same zero value — familiarity is read from
the lookup map alone, never from the buffer contents. -/
theorem claim_C10 (cap : Nat) (hcap : 1 ≤ cap) :
    (WitnessDigest (NewDejaVuDeterministic cap) zeroDigest).map Prod.fst
      = some false ∧
    ∀ j, j < cap → (NewDejaVuDeterministic cap).buffer[j]? = some zeroDigest := by
  constructor
  · have hg1 : (NewDejaVuDeterministic cap).index
        < (NewDejaVuDeterministic cap).buffer.length := by
      simp [NewDejaVuDeterministic]
      omega
    have hg2 : 0 < (NewDejaVuDeterministic cap).size := hcap
    rw [witnessDigest_eq zeroDigest hg1 hg2]
    rfl
  · intro j hj
    simp [NewDejaVuDeterministic, List.getElem?_replicate, hj]

theorem claim_C10_witness :
    (WitnessDigest (NewDejaVuDeterministic 1) zeroDigest).map Prod.fst
      = some false ∧
    ∀ j, j < 1 → (NewDejaVuDeterministic 1).buffer[j]? = some zeroDigest :=
  claim_C10 1 (by decide)

end DejaVu
